import Mathlib

/-!
Verification of the WeFlow encrypted data access and media decryption engine.

This file shallowly embeds the core logic of the repository:
* `WasmService.getKeystream` (electron/services/windowsHelloService.ts),
* `HttpService.fetchMessagesBatch`, `HttpService.handleMessages`,
  `HttpService.detectImageExt` (HTTP API service),
* `GroupAnalyticsService.readVarint`, `parseGroupNicknamesFromExtBuffer`,
  `resolveGroupNicknameByCandidates` and their helpers
  (electron/services/groupAnalyticsService.ts),
and proves the documented behavioural properties.

Modelling conventions:
* JS strings are `List Char` (Unicode scalars); byte buffers are `List Nat`
  with values in `[0, 256)`.
* JS number arithmetic on the integers appearing here is modelled with
  `Nat`; the one running sum that can leave the exactly-representable range
  of a JS double (`readVarint`'s `value`) applies an explicit IEEE-754
  round-to-nearest-even step (`fl53`) on every addition.
* Indexing a Node `Buffer` out of bounds yields `undefined`; `undefined & m`
  evaluates to `0` in JS, so out-of-bounds byte reads are modelled as
  `List.getD _ _ 0`.
* `Map` objects are association lists in insertion order.
-/

/-! ## Generic string helpers (JS semantics) -/

/-- Characters removed by JS `String.prototype.trim` (WhiteSpace and
LineTerminator code points). -/
def jsWhitespace (c : Char) : Bool :=
  let n := c.toNat
  n = 0x9 ∨ n = 0xA ∨ n = 0xB ∨ n = 0xC ∨ n = 0xD ∨ n = 0x20 ∨ n = 0xA0 ∨
  n = 0x1680 ∨ (0x2000 ≤ n ∧ n ≤ 0x200A) ∨ n = 0x2028 ∨ n = 0x2029 ∨
  n = 0x202F ∨ n = 0x205F ∨ n = 0x3000 ∨ n = 0xFEFF

/-- JS `String.prototype.trim`. -/
def jsTrim (s : List Char) : List Char :=
  ((s.dropWhile jsWhitespace).reverse.dropWhile jsWhitespace).reverse

/-- JS `String.prototype.toLowerCase` (ASCII letters; the identifiers and
keywords handled by the service are ASCII). -/
def toLowerStr (s : List Char) : List Char :=
  s.map Char.toLower

/-- JS `String.prototype.includes`: `pat` occurs contiguously in `s`. -/
def containsSub (s pat : List Char) : Bool :=
  (List.range (s.length + 1)).any fun i => pat.isPrefixOf (s.drop i)

/-- `buffer.subarray(start, end)` / `buffer.slice(start, end)` on byte
buffers (both ends clamped to the buffer length). -/
def bufSlice (buffer : List Nat) (start stop : Nat) : List Nat :=
  (buffer.take stop).drop start

/-! ## WasmService (windowsHelloService.ts, `WasmService.getKeystream`)

The WASM bytecode itself is an external asset; its observable effect during
`isaac.generate(size)` is whether the host callback `wasm_isaac_generate`
fires and which bytes the host copies out of linear memory when it does.
That effect is the `generate` field below. -/

/-- State of the loaded WASM module as observed by `getKeystream` after
`init()` resolved: whether `Module.WxIsaac64` / `Module.asm.WxIsaac64`
exist, and the capture effect of `new WxIsaac64(key); isaac.generate(size)`:
`some bytes` when the module invoked `wasm_isaac_generate` and the host
copied `bytes`, `none` when the callback was never invoked. -/
structure WasmModule where
  wxIsaac64 : Bool
  asmWxIsaac64 : Bool
  generate : List Char → Nat → Option (List Nat)

/-- `WasmService.getKeystream` after initialization: resolve the entry point
(falling back to `Module.asm.WxIsaac64`), run the cipher, and return the
captured buffer reversed, or an error. -/
def getKeystream (m : WasmModule) (key : List Char) (size : Nat) :
    Except (List Char) (List Nat) :=
  if (m.wxIsaac64 || m.asmWxIsaac64) = false then
    .error "[WasmService] WxIsaac64 not found in WASM module".data
  else
    match m.generate key size with
    | some captured => .ok captured.reverse
    | none =>
        .error "[WasmService] Failed to capture keystream (callback not called)".data

/-! ## HttpService.detectImageExt -/

/-- Node `buffer.toString('ascii')`: latin1 decoding with the high bit of
each byte cleared. -/
def asciiDecode (bytes : List Nat) : List Char :=
  bytes.map fun b => Char.ofNat (b &&& 0x7f)

/-- `HttpService.detectImageExt`: magic-byte sniffing of a decrypted image
buffer. -/
def detectImageExt (buffer : List Nat) : List Char :=
  if 3 ≤ buffer.length ∧ buffer.getD 0 0 = 0xff ∧ buffer.getD 1 0 = 0xd8 ∧
      buffer.getD 2 0 = 0xff then ".jpg".data
  else if 8 ≤ buffer.length ∧
      buffer.take 8 = [0x89, 0x50, 0x4e, 0x47, 0x0d, 0x0a, 0x1a, 0x0a] then
    ".png".data
  else if 6 ≤ buffer.length ∧
      (asciiDecode (buffer.take 6) = "GIF87a".data ∨
       asciiDecode (buffer.take 6) = "GIF89a".data) then ".gif".data
  else if 12 ≤ buffer.length ∧ asciiDecode (buffer.take 4) = "RIFF".data ∧
      asciiDecode (bufSlice buffer 8 12) = "WEBP".data then ".webp".data
  else if 2 ≤ buffer.length ∧ buffer.getD 0 0 = 0x42 ∧ buffer.getD 1 0 = 0x4d then
    ".bmp".data
  else ".jpg".data

/-! ## Claim C1: the keystream is the reversal of the captured callback
output -/

/-- C1: for every key and requested length, whenever the module's capture
callback delivered a buffer during the call (and the entry point exists, so
the call reaches the generation step), `getKeystream` returns exactly the
byte-wise reversal of that captured buffer, never the buffer in generation
order. -/
theorem getKeystream_reverses_captured (m : WasmModule) (key : List Char)
    (size : Nat) (captured : List Nat)
    (hentry : (m.wxIsaac64 || m.asmWxIsaac64) = true)
    (hcap : m.generate key size = some captured) :
    getKeystream m key size = .ok captured.reverse := by
  simp [getKeystream, hentry, hcap]

/-- Witness for C1 at a concrete module whose callback captures `[1, 2, 3]`. -/
theorem getKeystream_reverses_captured_witness :
    getKeystream ⟨true, false, fun _ _ => some [1, 2, 3]⟩ "k".data 3 =
      .ok [3, 2, 1] :=
  getKeystream_reverses_captured _ _ _ [1, 2, 3] rfl rfl

/-! ## Claim C7: error behaviour of getKeystream -/

/-- C7: `getKeystream` fails when the `WxIsaac64` entry point is absent from
the module (also via the `Module.asm` fallback), fails when the generate
operation completes without the output callback having been invoked, and
returns a buffer only when the callback was invoked during the call. -/
theorem getKeystream_error_contract (m : WasmModule) (key : List Char)
    (size : Nat) :
    ((m.wxIsaac64 || m.asmWxIsaac64) = false →
      ∃ e, getKeystream m key size = .error e) ∧
    (m.generate key size = none →
      ∃ e, getKeystream m key size = .error e) ∧
    (∀ bytes, getKeystream m key size = .ok bytes →
      ∃ captured, m.generate key size = some captured ∧
        bytes = captured.reverse) := by
  refine ⟨fun h =>
    ⟨"[WasmService] WxIsaac64 not found in WASM module".data,
      by simp [getKeystream, h]⟩, fun h => ?_, fun bytes h => ?_⟩
  · by_cases hentry : (m.wxIsaac64 || m.asmWxIsaac64) = false
    · exact ⟨"[WasmService] WxIsaac64 not found in WASM module".data,
        by simp [getKeystream, hentry]⟩
    · exact
        ⟨"[WasmService] Failed to capture keystream (callback not called)".data,
          by simp [getKeystream, hentry, h]⟩
  · unfold getKeystream at h
    by_cases hentry : (m.wxIsaac64 || m.asmWxIsaac64) = false
    · simp [hentry] at h
    · simp only [hentry, if_false] at h
      cases hcap : m.generate key size with
      | none => rw [hcap] at h; exact absurd h (by simp)
      | some captured =>
          rw [hcap] at h
          exact ⟨captured, rfl, by simpa using h.symm⟩

/-- Witness for C7 at a module lacking the entry point. -/
theorem getKeystream_error_contract_witness :
    ∃ e, getKeystream ⟨false, false, fun _ _ => none⟩ [] 0 = .error e :=
  (getKeystream_error_contract ⟨false, false, fun _ _ => none⟩ [] 0).1 rfl

/-! ## Claim C8: image magic-byte sniffing

`buffer.subarray(..).toString('ascii')` clears the high bit of each byte
before comparing, so the GIF and WEBP checks accept bytes that only match
the signature modulo the high bit.  The byte-exact reading of the claim is
therefore refuted below, and the masked variant is proved. -/

/-- Claim-side: the first three bytes are `FF D8 FF`. -/
def claimJpgSig (buffer : List Nat) : Prop :=
  buffer.take 3 = [0xff, 0xd8, 0xff]

/-- Claim-side: the first eight bytes are the PNG signature. -/
def claimPngSig (buffer : List Nat) : Prop :=
  buffer.take 8 = [0x89, 0x50, 0x4e, 0x47, 0x0d, 0x0a, 0x1a, 0x0a]

/-- Claim-side (byte-exact reading): the first six bytes spell
`GIF87a` or `GIF89a`. -/
def claimGifSig (buffer : List Nat) : Prop :=
  buffer.take 6 = [0x47, 0x49, 0x46, 0x38, 0x37, 0x61] ∨
  buffer.take 6 = [0x47, 0x49, 0x46, 0x38, 0x39, 0x61]

/-- Claim-side (byte-exact reading): bytes 0-3 spell `RIFF` and bytes 8-11
spell `WEBP`. -/
def claimWebpSig (buffer : List Nat) : Prop :=
  buffer.take 4 = [0x52, 0x49, 0x46, 0x46] ∧
  bufSlice buffer 8 12 = [0x57, 0x45, 0x42, 0x50]

/-- Claim-side: the first two bytes are `BM`. -/
def claimBmpSig (buffer : List Nat) : Prop :=
  buffer.take 2 = [0x42, 0x4d]

/-- Amended claim-side GIF signature: the first six bytes, each with its
high bit cleared, spell `GIF87a` or `GIF89a`. -/
def maskedGifSig (buffer : List Nat) : Prop :=
  (buffer.take 6).map (fun b => b &&& 0x7f) = [0x47, 0x49, 0x46, 0x38, 0x37, 0x61] ∨
  (buffer.take 6).map (fun b => b &&& 0x7f) = [0x47, 0x49, 0x46, 0x38, 0x39, 0x61]

/-- Amended claim-side WEBP signature: bytes 0-3 and 8-11, each with its
high bit cleared, spell `RIFF` and `WEBP`. -/
def maskedWebpSig (buffer : List Nat) : Prop :=
  (buffer.take 4).map (fun b => b &&& 0x7f) = [0x52, 0x49, 0x46, 0x46] ∧
  (bufSlice buffer 8 12).map (fun b => b &&& 0x7f) = [0x57, 0x45, 0x42, 0x50]

instance (buffer : List Nat) : Decidable (claimJpgSig buffer) := by
  unfold claimJpgSig; exact inferInstance

instance (buffer : List Nat) : Decidable (claimPngSig buffer) := by
  unfold claimPngSig; exact inferInstance

instance (buffer : List Nat) : Decidable (claimGifSig buffer) := by
  unfold claimGifSig; exact inferInstance

instance (buffer : List Nat) : Decidable (claimWebpSig buffer) := by
  unfold claimWebpSig; exact inferInstance

instance (buffer : List Nat) : Decidable (claimBmpSig buffer) := by
  unfold claimBmpSig; exact inferInstance

instance (buffer : List Nat) : Decidable (maskedGifSig buffer) := by
  unfold maskedGifSig; exact inferInstance

instance (buffer : List Nat) : Decidable (maskedWebpSig buffer) := by
  unfold maskedWebpSig; exact inferInstance

/-- The claim's full case analysis, with the GIF and WEBP signatures in
their amended (high-bit-masked) form, in the source's check order. -/
def detectImageExtClaim (buffer : List Nat) : List Char :=
  if claimJpgSig buffer then ".jpg".data
  else if claimPngSig buffer then ".png".data
  else if maskedGifSig buffer then ".gif".data
  else if maskedWebpSig buffer then ".webp".data
  else if claimBmpSig buffer then ".bmp".data
  else ".jpg".data

/-- C8 counterexample: the buffer `C7 49 46 38 37 61` (`GIF87a` with the
high bit of the first byte set) matches none of the five byte-exact
signatures of the claim, yet `detectImageExt` returns `.gif`, not the
claimed default `.jpg`. -/
theorem detectImageExt_claim_counterexample :
    detectImageExt [0xc7, 0x49, 0x46, 0x38, 0x37, 0x61] = ".gif".data ∧
    ".gif".data ≠ ".jpg".data ∧
    ¬ claimJpgSig [0xc7, 0x49, 0x46, 0x38, 0x37, 0x61] ∧
    ¬ claimPngSig [0xc7, 0x49, 0x46, 0x38, 0x37, 0x61] ∧
    ¬ claimGifSig [0xc7, 0x49, 0x46, 0x38, 0x37, 0x61] ∧
    ¬ claimWebpSig [0xc7, 0x49, 0x46, 0x38, 0x37, 0x61] ∧
    ¬ claimBmpSig [0xc7, 0x49, 0x46, 0x38, 0x37, 0x61] := by
  decide

theorem charToNat_ofNat {n : Nat} (h : n < 55296) : (Char.ofNat n).toNat = n := by
  have hv : Nat.isValidChar n := Or.inl h
  rw [Char.ofNat, dif_pos hv]
  show (UInt32.ofNat' n _).toNat = n
  simp [UInt32.ofNat', UInt32.toNat]

theorem charOfNat_mask_inj (l : List Nat) (s : List Char) :
    (asciiDecode l = s ↔ l.map (fun b => b &&& 0x7f) = s.map Char.toNat) := by
  unfold asciiDecode
  constructor
  · intro h
    have h2 := congrArg (List.map Char.toNat) h
    rw [List.map_map] at h2
    rw [← h2]
    apply List.map_congr_left
    intro b _
    exact (charToNat_ofNat (lt_of_le_of_lt Nat.and_le_right (by norm_num))).symm
  · intro h
    have h2 := congrArg (List.map Char.ofNat) h
    rw [List.map_map, List.map_map] at h2
    have h3 : List.map (Char.ofNat ∘ Char.toNat) s = s := by
      conv_rhs => rw [← List.map_id s]
      apply List.map_congr_left
      intro c _
      exact Char.ofNat_toNat c
    rw [h3] at h2
    simpa [Function.comp] using h2

theorem detectImageExt_gif_cond (buffer : List Nat) :
    (6 ≤ buffer.length ∧
      (asciiDecode (buffer.take 6) = ['G', 'I', 'F', '8', '7', 'a'] ∨
       asciiDecode (buffer.take 6) = ['G', 'I', 'F', '8', '9', 'a'])) ↔
      maskedGifSig buffer := by
  unfold maskedGifSig
  rw [charOfNat_mask_inj _ _, charOfNat_mask_inj _ _]
  have e1 : List.map Char.toNat ['G', 'I', 'F', '8', '7', 'a'] =
      [0x47, 0x49, 0x46, 0x38, 0x37, 0x61] := by decide
  have e2 : List.map Char.toNat ['G', 'I', 'F', '8', '9', 'a'] =
      [0x47, 0x49, 0x46, 0x38, 0x39, 0x61] := by decide
  rw [e1, e2]
  constructor
  · exact fun h => h.2
  · rintro (h | h)
    · have hlen := congrArg List.length h
      simp [List.length_take] at hlen
      exact ⟨by omega, Or.inl h⟩
    · have hlen := congrArg List.length h
      simp [List.length_take] at hlen
      exact ⟨by omega, Or.inr h⟩

theorem detectImageExt_webp_cond (buffer : List Nat) :
    (12 ≤ buffer.length ∧ asciiDecode (buffer.take 4) = ['R', 'I', 'F', 'F'] ∧
      asciiDecode (bufSlice buffer 8 12) = ['W', 'E', 'B', 'P']) ↔
      maskedWebpSig buffer := by
  unfold maskedWebpSig
  rw [charOfNat_mask_inj _ _, charOfNat_mask_inj _ _]
  have e1 : List.map Char.toNat ['R', 'I', 'F', 'F'] =
      [0x52, 0x49, 0x46, 0x46] := by decide
  have e2 : List.map Char.toNat ['W', 'E', 'B', 'P'] =
      [0x57, 0x45, 0x42, 0x50] := by decide
  rw [e1, e2]
  constructor
  · exact fun h => ⟨h.2.1, h.2.2⟩
  · rintro ⟨h1, h2⟩
    have hlen := congrArg List.length h2
    simp [bufSlice, List.length_take] at hlen
    exact ⟨by omega, h1, h2⟩

theorem detectImageExt_jpg_cond (buffer : List Nat) :
    (3 ≤ buffer.length ∧ buffer.getD 0 0 = 0xff ∧ buffer.getD 1 0 = 0xd8 ∧
      buffer.getD 2 0 = 0xff) ↔ claimJpgSig buffer := by
  unfold claimJpgSig
  match buffer with
  | [] => simp
  | [a] => simp
  | [a, b] => simp
  | a :: b :: c :: t => simp [List.getD]

theorem detectImageExt_bmp_cond (buffer : List Nat) :
    (2 ≤ buffer.length ∧ buffer.getD 0 0 = 0x42 ∧ buffer.getD 1 0 = 0x4d) ↔
      claimBmpSig buffer := by
  unfold claimBmpSig
  match buffer with
  | [] => simp
  | [a] => simp
  | a :: b :: t => simp [List.getD]

theorem detectImageExt_png_cond (buffer : List Nat) :
    (8 ≤ buffer.length ∧
      buffer.take 8 = [0x89, 0x50, 0x4e, 0x47, 0x0d, 0x0a, 0x1a, 0x0a]) ↔
      claimPngSig buffer := by
  unfold claimPngSig
  constructor
  · exact And.right
  · intro h
    have hlen := congrArg List.length h
    simp [List.length_take] at hlen
    exact ⟨by omega, h⟩

/-- C8 amended: `detectImageExt` realizes exactly the claim's case analysis
once the GIF and WEBP signatures are compared with the high bit of each
byte cleared (the behaviour of Node's `ascii` decoding); in particular
`.jpg` is returned for every buffer matching none of the (amended)
signatures. -/
theorem detectImageExt_matches_claim (buffer : List Nat) :
    detectImageExt buffer = detectImageExtClaim buffer := by
  unfold detectImageExt detectImageExtClaim
  simp only [detectImageExt_jpg_cond, detectImageExt_png_cond,
    detectImageExt_gif_cond, detectImageExt_webp_cond, detectImageExt_bmp_cond]

/-! ## HttpService.fetchMessagesBatch (paginated message cursor)

The encrypted store (`wcdbService`) is an external collaborator; a cursor's
observable behaviour is the sequence of `{ rows, hasMore }` batch results
that successive `fetchMessageBatch` calls deliver, modelled as a
`List (List α × Bool)` (an exhausted cursor yields empty batches, which the
loop treats as the end of data).  `chatService.mapRowsToMessagesForApi`
maps rows to API messages one-for-one, modelled by `mapRow`. -/

/-- The batch-accumulation loop of `fetchMessagesBatch`: pull batches while
fewer than `limit` rows are accumulated and the cursor signalled more data,
skipping `offset` rows from the front. -/
def fetchLoop {α : Type} (offset limit : Nat) :
    List (List α × Bool) → List α → Bool → Nat → List α × Bool
  | batches, allRows, hasMore, skipped =>
    if allRows.length < limit ∧ hasMore = true then
      match batches with
      | [] => (allRows, false)
      | (rows, bMore) :: rest =>
        if rows.length = 0 then (allRows, false)
        else if skipped < offset then
          let remaining := offset - skipped
          if rows.length ≤ remaining then
            fetchLoop offset limit rest allRows bMore (skipped + rows.length)
          else
            fetchLoop offset limit rest (allRows ++ rows.drop remaining) bMore offset
        else fetchLoop offset limit rest (allRows ++ rows) bMore skipped
    else (allRows, hasMore)

/-- `HttpService.fetchMessagesBatch`: run the loop from an empty
accumulator, trim to `limit`, map rows to API messages, and report
`hasMore` if the cursor still signalled more data or trimming occurred. -/
def fetchMessagesBatch {α β : Type} (mapRow : α → β)
    (batches : List (List α × Bool)) (offset limit : Nat) : List β × Bool :=
  let r := fetchLoop offset limit batches [] true 0
  ((r.1.take limit).map mapRow, r.2 || decide (limit < r.1.length))

/-- Modelled from the spec: the encrypted store's message cursor
(`wcdbService.openMessageCursor` / `fetchMessageBatch`, external to the
shown sources) yields the dataset's rows in order, in batches of the
requested fixed `batchSize`, with `hasMore` signalling that rows remain
beyond the delivered batch (spec section 6 and glossary entries for
`Cursor (store)` and `hasMore`). -/
def mkBatches {α : Type} : Nat → List α → Nat → List (List α × Bool)
  | 0, _, _ => []
  | fuel + 1, rows, batchSize =>
    if rows.length = 0 then []
    else (rows.take batchSize, decide (batchSize < rows.length)) ::
      mkBatches fuel (rows.drop batchSize) batchSize

/-- `fetchMessagesBatch` wired to a store cursor over a concrete dataset,
with the source's fixed batch size `min(limit, 500)`. -/
def fetchPage {α : Type} (dataset : List α) (offset limit : Nat) :
    List α × Bool :=
  fetchMessagesBatch id (mkBatches dataset.length dataset (min limit 500))
    offset limit

/-! ## HttpService.handleMessages (keyword filtering) -/

/-- The fields of an API message inspected by the keyword filter. -/
structure Message where
  parsedContent : List Char
  rawContent : List Char
deriving DecidableEq

/-- `msg.parsedContent || msg.rawContent || ''` (JS falsy: an empty string
falls through). -/
def resolvedContent (msg : Message) : List Char :=
  if msg.parsedContent ≠ [] then msg.parsedContent
  else if msg.rawContent ≠ [] then msg.rawContent
  else []

/-- The `/api/v1/messages` handler from the point where `talker`, `offset`,
`limit` and the keyword are known: override pagination when a keyword is
present, fetch, then filter / slice in memory.  `rawKeyword` is the raw
query parameter; the handler trims and lowercases it. -/
def handleMessages (batches : List (List Message × Bool))
    (offset limit : Nat) (rawKeyword : List Char) : List Message × Bool :=
  let keyword := toLowerStr (jsTrim rawKeyword)
  let queryOffset := if keyword ≠ [] then 0 else offset
  let queryLimit := if keyword ≠ [] then 10000 else limit
  let r := fetchMessagesBatch id batches queryOffset queryLimit
  if keyword ≠ [] then
    let filtered := r.1.filter fun msg =>
      containsSub (toLowerStr (resolvedContent msg)) keyword
    ((filtered.drop offset).take limit,
      decide (offset + limit < filtered.length))
  else r

/-! ## Claim C2: page-size and hasMore invariants of fetchMessagesBatch -/

/-- C2: for every cursor behaviour, offset and limit ≥ 1, the page returned
by `fetchMessagesBatch` has at most `limit` rows, and its `hasMore` flag is
true iff the loop ended with the cursor still signalling more data, or more
rows than `limit` were accumulated after offset-skipping (trimming
occurred). -/
theorem fetchMessagesBatch_page_invariant {α β : Type} (mapRow : α → β)
    (batches : List (List α × Bool)) (offset limit : Nat)
    (_hlim : 1 ≤ limit) :
    (fetchMessagesBatch mapRow batches offset limit).1.length ≤ limit ∧
    ((fetchMessagesBatch mapRow batches offset limit).2 = true ↔
      (fetchLoop offset limit batches [] true 0).2 = true ∨
      limit < (fetchLoop offset limit batches [] true 0).1.length) := by
  unfold fetchMessagesBatch
  refine ⟨?_, ?_⟩
  · simp [List.length_take]
  · simp

/-- Witness for C2 on a one-batch cursor with two rows and `limit = 1`. -/
theorem fetchMessagesBatch_page_invariant_witness :
    (fetchMessagesBatch id [([10, 20], true)] 0 1).1.length ≤ 1 ∧
    ((fetchMessagesBatch id [([10, 20], true)] 0 1).2 = true ↔
      (fetchLoop 0 1 [([10, 20], true)] [] true 0).2 = true ∨
      1 < (fetchLoop 0 1 [([10, 20], true)] [] true 0).1.length) :=
  fetchMessagesBatch_page_invariant id [([10, 20], true)] 0 1 (by decide)

/-! ## Claim C3: two-page walk over a 35-row dataset -/

/-- C3: on a stable 35-row dataset (served by the store cursor in batches
of the source's fixed size `min(limit, 500) = 20`), fetching
`offset = 0, limit = 20` returns exactly the first 20 rows, and fetching
`offset = 20, limit = 20` returns exactly the remaining 15 rows with
`hasMore = false`. -/
theorem fetchPage_35_rows :
    (fetchPage (List.range 35) 0 20).1 = (List.range 35).take 20 ∧
    (fetchPage (List.range 35) 0 20).1.length = 20 ∧
    (fetchPage (List.range 35) 20 20).1 = (List.range 35).drop 20 ∧
    (fetchPage (List.range 35) 20 20).1.length = 15 ∧
    (fetchPage (List.range 35) 20 20).2 = false := by
  decide

/-! ## Claim C4: keyword search pagination -/

/-- C4: whenever the request carries a non-empty (trimmed) keyword, the
handler queries the store with effective offset 0 and effective limit
10000, keeps exactly the fetched messages whose resolved content contains
the lowercased keyword, returns the slice `[offset, offset + limit)` of the
filtered sequence, and reports `hasMore` iff the filtered sequence has more
than `offset + limit` elements. -/
theorem handleMessages_keyword_search (batches : List (List Message × Bool))
    (offset limit : Nat) (rawKeyword : List Char)
    (hkw : toLowerStr (jsTrim rawKeyword) ≠ []) :
    (handleMessages batches offset limit rawKeyword).1 =
      (((fetchMessagesBatch id batches 0 10000).1.filter fun msg =>
          containsSub (toLowerStr (resolvedContent msg))
            (toLowerStr (jsTrim rawKeyword))).drop offset).take limit ∧
    ((handleMessages batches offset limit rawKeyword).2 = true ↔
      offset + limit <
        ((fetchMessagesBatch id batches 0 10000).1.filter fun msg =>
          containsSub (toLowerStr (resolvedContent msg))
            (toLowerStr (jsTrim rawKeyword))).length) ∧
    (∀ msg, msg ∈ (fetchMessagesBatch id batches 0 10000).1.filter
        (fun msg => containsSub (toLowerStr (resolvedContent msg))
          (toLowerStr (jsTrim rawKeyword))) ↔
      msg ∈ (fetchMessagesBatch id batches 0 10000).1 ∧
        containsSub (toLowerStr (resolvedContent msg))
          (toLowerStr (jsTrim rawKeyword)) = true) := by
  refine ⟨?_, ?_, fun msg => List.mem_filter⟩
  all_goals simp only [handleMessages, if_pos hkw, ne_eq]
  all_goals simp [hkw]

/-- Witness for C4: keyword `He` (lowercased `he`) over a single-batch
dataset of two messages, of which one matches. -/
theorem handleMessages_keyword_search_witness :
    (handleMessages [([⟨"Hello".data, []⟩, ⟨"world".data, []⟩], false)]
        0 10 "He".data).1 =
      ((((fetchMessagesBatch id
          [([⟨"Hello".data, []⟩, ⟨"world".data, []⟩], false)] 0 10000).1.filter
            fun msg => containsSub (toLowerStr (resolvedContent msg))
              (toLowerStr (jsTrim "He".data))).drop 0).take 10) ∧
    ((handleMessages [([⟨"Hello".data, []⟩, ⟨"world".data, []⟩], false)]
        0 10 "He".data).2 = true ↔
      0 + 10 <
        ((fetchMessagesBatch id
          [([⟨"Hello".data, []⟩, ⟨"world".data, []⟩], false)] 0 10000).1.filter
            fun msg => containsSub (toLowerStr (resolvedContent msg))
              (toLowerStr (jsTrim "He".data))).length) ∧
    (∀ msg, msg ∈ (fetchMessagesBatch id
        [([⟨"Hello".data, []⟩, ⟨"world".data, []⟩], false)] 0 10000).1.filter
          (fun msg => containsSub (toLowerStr (resolvedContent msg))
            (toLowerStr (jsTrim "He".data))) ↔
      msg ∈ (fetchMessagesBatch id
          [([⟨"Hello".data, []⟩, ⟨"world".data, []⟩], false)] 0 10000).1 ∧
        containsSub (toLowerStr (resolvedContent msg))
          (toLowerStr (jsTrim "He".data)) = true) :=
  handleMessages_keyword_search _ 0 10 "He".data (by decide)

/-! ## GroupAnalyticsService.readVarint

`readVarint` loops `while (pos < limit && shift <= 53)`, adding
`(byte & 0x7f) * 2^shift` and stopping at the first byte whose high bit is
clear.  The shift values visited are `0, 7, ..., 49`: at most 8 iterations,
so the loop is modelled with a fuel of 8 (fuel 0 and `shift = 56 > 53`
coincide).

The accumulator `value` is a JS number (an IEEE-754 double).  Each term
`(byte & 0x7f) * Math.pow(2, shift)` is exact (at most 7 significant bits,
magnitude below 2^56), but the running sum can exceed 2^53 on the eighth
byte, in which case the addition rounds to nearest, ties to even.  This is
modelled by applying `fl53` to every addition. -/

/-- Result of `readVarint`: the decoded value and the next read position. -/
structure VarintResult where
  value : Nat
  next : Nat
deriving DecidableEq, Repr

/-- Smallest power of two `p` with `x / p < 2^53` (the spacing of the
IEEE-754 doubles around `x`); fuelled by `x` itself, halving each step. -/
def flScaleAux : Nat → Nat → Nat
  | 0, _ => 1
  | fuel + 1, x => if x < 2 ^ 53 then 1 else 2 * flScaleAux fuel (x / 2)

/-- Round a non-negative integer to the nearest IEEE-754 double
(round-half-to-even on a 53-bit significand); the identity below `2^53`.
The sums reached by `readVarint` stay far below the overflow threshold. -/
def fl53 (x : Nat) : Nat :=
  if x < 2 ^ 53 then x
  else
    let p := flScaleAux x x
    let q := x / p
    let r := x % p
    if p < 2 * r ∨ (2 * r = p ∧ q % 2 = 1) then (q + 1) * p else q * p

theorem fl53_eq_of_lt {x : Nat} (h : x < 2 ^ 53) : fl53 x = x := by
  unfold fl53
  rw [if_pos h]

/-- Loop body of `readVarint`.  Out-of-bounds reads (possible only when
`limit` exceeds the buffer length) yield `undefined`, which the bitwise
operations in the source coerce to 0, hence `getD _ _ 0`; the double
addition `value += (byte & 0x7f) * Math.pow(2, shift)` rounds via `fl53`. -/
def readVarintGo (buffer : List Nat) (limit : Nat) :
    Nat → Nat → Nat → Nat → Option VarintResult
  | 0, _, _, _ => none
  | fuel + 1, value, shift, pos =>
    if pos < limit ∧ shift ≤ 53 then
      let byte := buffer.getD pos 0
      let value := fl53 (value + (byte &&& 0x7f) * 2 ^ shift)
      if byte &&& 0x80 = 0 then some ⟨value, pos + 1⟩
      else readVarintGo buffer limit fuel value (shift + 7) (pos + 1)
    else none

/-- `GroupAnalyticsService.readVarint buffer offset limit` (the source's
`limit` defaults to `buffer.length` at every call site in the parser). -/
def readVarint (buffer : List Nat) (offset : Nat)
    (limit : Nat := buffer.length) : Option VarintResult :=
  readVarintGo buffer limit 8 0 0 offset

/-- Base-128 little-endian interpretation of a byte sequence (low 7 bits of
each byte, first byte least significant). -/
def leBase128 (bytes : List Nat) : Nat :=
  bytes.foldr (fun b acc => (b &&& 0x7f) + 128 * acc) 0

/-! ## Claim C9: bounds and semantics of readVarint -/

theorem getD_take_of_lt (l : List Nat) (n i : Nat) (h : i < n) :
    (l.take n).getD i 0 = l.getD i 0 := by
  rw [List.getD_eq_getElem?_getD, List.getD_eq_getElem?_getD,
    List.getElem?_take_of_lt h]

theorem readVarintGo_take (buffer : List Nat) (limit : Nat) :
    ∀ fuel value shift pos,
      readVarintGo (buffer.take limit) limit fuel value shift pos =
        readVarintGo buffer limit fuel value shift pos := by
  intro fuel
  induction fuel with
  | zero => intro value shift pos; rfl
  | succ fuel ih =>
      intro value shift pos
      unfold readVarintGo
      by_cases h : pos < limit ∧ shift ≤ 53
      · simp only [if_pos h, getD_take_of_lt _ _ _ h.1, ih]
      · rw [if_neg h, if_neg h]

theorem bufSlice_cons (buffer : List Nat) (pos next : Nat)
    (h1 : pos < buffer.length) (h2 : pos < next) :
    bufSlice buffer pos next = buffer.getD pos 0 :: bufSlice buffer (pos + 1) next := by
  unfold bufSlice
  have hlt : pos < (buffer.take next).length := by
    rw [List.length_take]; omega
  rw [List.drop_eq_getElem_cons hlt]
  congr 1
  rw [List.getElem_take, List.getD_eq_getElem?_getD, List.getElem?_eq_getElem h1]
  rfl

theorem readVarintGo_some (buffer : List Nat) (limit : Nat) :
    ∀ fuel value shift pos r,
      readVarintGo buffer limit fuel value shift pos = some r →
      pos < r.next ∧ r.next ≤ limit ∧ r.next ≤ pos + fuel ∧
      (value + 2 ^ shift * leBase128 (bufSlice buffer pos r.next) < 2 ^ 53 →
        r.value = value + 2 ^ shift * leBase128 (bufSlice buffer pos r.next)) ∧
      buffer.getD (r.next - 1) 0 &&& 0x80 = 0 := by
  intro fuel
  induction fuel with
  | zero => intro value shift pos r h; exact absurd h (by simp [readVarintGo])
  | succ fuel ih =>
      intro value shift pos r h
      unfold readVarintGo at h
      by_cases hc : pos < limit ∧ shift ≤ 53
      · rw [if_pos hc] at h
        by_cases hb : buffer.getD pos 0 &&& 0x80 = 0
        · rw [if_pos hb] at h
          have hr : r = ⟨fl53 (value + (buffer.getD pos 0 &&& 0x7f) * 2 ^ shift),
              pos + 1⟩ := (Option.some.inj h).symm
          subst hr
          refine ⟨?_, ?_, ?_, ?_, ?_⟩
          · show pos < pos + 1
            omega
          · show pos + 1 ≤ limit
            omega
          · show pos + 1 ≤ pos + (fuel + 1)
            omega
          · show value + 2 ^ shift * leBase128 (bufSlice buffer pos (pos + 1)) <
                2 ^ 53 →
              fl53 (value + (buffer.getD pos 0 &&& 0x7f) * 2 ^ shift) =
                value + 2 ^ shift * leBase128 (bufSlice buffer pos (pos + 1))
            intro hlt
            have hval : value + (buffer.getD pos 0 &&& 0x7f) * 2 ^ shift =
                value + 2 ^ shift * leBase128 (bufSlice buffer pos (pos + 1)) := by
              by_cases hpos : pos < buffer.length
              · rw [bufSlice_cons buffer pos (pos + 1) hpos (by omega)]
                have hnil : bufSlice buffer (pos + 1) (pos + 1) = [] := by
                  unfold bufSlice
                  apply List.drop_eq_nil_of_le
                  rw [List.length_take]; omega
                rw [hnil]
                simp [leBase128, Nat.mul_comm]
              · have hz : buffer.getD pos 0 = 0 := by
                  rw [List.getD_eq_getElem?_getD, List.getElem?_eq_none (by omega)]
                  rfl
                have hsl : bufSlice buffer pos (pos + 1) = [] := by
                  unfold bufSlice
                  apply List.drop_eq_nil_of_le
                  rw [List.length_take]; omega
                rw [hsl, hz]
                simp [leBase128]
            rw [hval]
            exact fl53_eq_of_lt hlt
          · show buffer.getD (pos + 1 - 1) 0 &&& 0x80 = 0
            simpa using hb
        · rw [if_neg hb] at h
          have hpos : pos < buffer.length := by
            by_contra hge
            have hz : buffer.getD pos 0 = 0 := by
              rw [List.getD_eq_getElem?_getD, List.getElem?_eq_none (by omega)]
              rfl
            rw [hz] at hb
            exact hb (by decide)
          obtain ⟨h1, h2, h3, h4, h5⟩ := ih _ _ _ _ h
          refine ⟨by omega, h2, by omega, ?_, h5⟩
          intro hlt
          rw [bufSlice_cons buffer pos r.next hpos (by omega)] at hlt ⊢
          simp only [leBase128, List.foldr_cons] at hlt h4 ⊢
          have hmono : (buffer.getD pos 0 &&& 0x7f) * 2 ^ shift ≤
              2 ^ shift * ((buffer.getD pos 0 &&& 0x7f) +
                128 * List.foldr (fun b acc => (b &&& 0x7f) + 128 * acc) 0
                  (bufSlice buffer (pos + 1) r.next)) := by
            rw [Nat.mul_comm]
            exact Nat.mul_le_mul_left _ (by omega)
          have hsmall : value + (buffer.getD pos 0 &&& 0x7f) * 2 ^ shift <
              2 ^ 53 := by
            omega
          rw [fl53_eq_of_lt hsmall] at h4
          have heq : value + (buffer.getD pos 0 &&& 0x7f) * 2 ^ shift +
              2 ^ (shift + 7) * List.foldr (fun b acc => (b &&& 0x7f) + 128 * acc) 0
                (bufSlice buffer (pos + 1) r.next) =
              value + 2 ^ shift * ((buffer.getD pos 0 &&& 0x7f) +
                128 * List.foldr (fun b acc => (b &&& 0x7f) + 128 * acc) 0
                  (bufSlice buffer (pos + 1) r.next)) := by
            ring
          rw [h4 (by omega), heq]
      · rw [if_neg hc] at h
        exact absurd h (by simp)

theorem readVarintGo_none (buffer : List Nat) (limit : Nat) :
    ∀ fuel value shift pos, shift = 7 * (8 - fuel) → fuel ≤ 8 →
      (readVarintGo buffer limit fuel value shift pos = none ↔
        ∀ k < min fuel (limit - pos), buffer.getD (pos + k) 0 &&& 0x80 ≠ 0) := by
  intro fuel
  induction fuel with
  | zero => intro value shift pos _ _; simp [readVarintGo]
  | succ fuel ih =>
      intro value shift pos hshift hfuel
      unfold readVarintGo
      by_cases hpos : pos < limit
      · have hc : pos < limit ∧ shift ≤ 53 := ⟨hpos, by omega⟩
        rw [if_pos hc]
        by_cases hb : buffer.getD pos 0 &&& 0x80 = 0
        · simp only [hb, if_pos]
          constructor
          · intro h; exact absurd h (by simp)
          · intro h
            exact absurd (h 0 (by omega)) (by simpa using hb)
        · rw [if_neg hb]
          rw [ih _ (shift + 7) (pos + 1) (by omega) (by omega)]
          constructor
          · intro h k hk
            match k with
            | 0 => simpa using hb
            | k + 1 =>
                have hke : pos + (k + 1) = pos + 1 + k := by omega
                rw [hke]
                exact h k (by omega)
          · intro h k hk
            have hke : pos + 1 + k = pos + (k + 1) := by omega
            rw [hke]
            exact h (k + 1) (by omega)
      · rw [if_neg (by omega)]
        constructor
        · intro _ k hk
          exact absurd hk (by omega)
        · intro _
          rfl

/-- C9 counterexample, two independent divergences from the claim as
stated.  First, with `limit = 2` on the one-byte buffer `[0x80]` (whose
single in-range byte has the continuation bit set, so the claim demands a
`null` result), `readVarint` reads past the end of the buffer — the
out-of-bounds `undefined` coerces to a terminating zero byte — and returns
a result whose `next` position `2` even exceeds
`min(limit, buffer.length) = 1`.  Second, on the 8-byte varint
`81 80 80 80 80 80 80 40` (offset 0, limit = buffer length) the source
accumulates the value in IEEE-754 doubles: `1 + 2^55` rounds to `2^55`,
which differs from the base-128 little-endian interpretation `2^55 + 1` of
the consumed bytes. -/
theorem readVarint_claim_counterexample :
    (readVarint [0x80] 0 2 = some ⟨0, 2⟩ ∧
      (∀ k < min 2 ([0x80] : List Nat).length, [0x80].getD k 0 &&& 0x80 ≠ 0) ∧
      min 2 ([0x80] : List Nat).length = 1) ∧
    (readVarint [0x81, 0x80, 0x80, 0x80, 0x80, 0x80, 0x80, 0x40] 0 8 =
        some ⟨2 ^ 55, 8⟩ ∧
      leBase128 (bufSlice [0x81, 0x80, 0x80, 0x80, 0x80, 0x80, 0x80, 0x40] 0 8) =
        2 ^ 55 + 1 ∧
      (2 ^ 55 : Nat) ≠ 2 ^ 55 + 1) := by
  exact ⟨⟨by decide, by decide, by decide⟩, by decide, by decide, by decide⟩

/-- C9 amended: for every buffer, offset and `limit ≤ buffer.length`,
`readVarint` inspects no byte at or beyond `limit` (its result over the
truncated buffer is identical), examines at most 8 bytes; it returns `none`
exactly when none of the first `min(8, limit - offset)` bytes from `offset`
has its continuation bit clear; and on success the next position satisfies
`offset < next ≤ limit` with `next ≤ offset + 8`, the final consumed byte
has its continuation bit clear, and the value is the base-128
little-endian interpretation of the consumed bytes whenever that
interpretation is below `2^53` — the exactly-representable range of the
JS doubles in which the source accumulates; an 8-byte varint beyond it is
rounded. -/
theorem readVarint_safety (buffer : List Nat) (offset limit : Nat)
    (_hlim : limit ≤ buffer.length) :
    readVarint buffer offset limit = readVarint (buffer.take limit) offset limit ∧
    (∀ r, readVarint buffer offset limit = some r →
      offset < r.next ∧ r.next ≤ limit ∧ r.next ≤ offset + 8 ∧
      (leBase128 (bufSlice buffer offset r.next) < 2 ^ 53 →
        r.value = leBase128 (bufSlice buffer offset r.next)) ∧
      buffer.getD (r.next - 1) 0 &&& 0x80 = 0) ∧
    (readVarint buffer offset limit = none ↔
      ∀ k < min 8 (limit - offset), buffer.getD (offset + k) 0 &&& 0x80 ≠ 0) := by
  refine ⟨?_, fun r h => ?_, ?_⟩
  · unfold readVarint
    rw [readVarintGo_take]
  · obtain ⟨h1, h2, h3, h4, h5⟩ := readVarintGo_some buffer limit 8 0 0 offset r h
    refine ⟨h1, h2, h3, fun hlt => ?_, h5⟩
    have hv := h4 (by simpa using hlt)
    simpa using hv
  · exact readVarintGo_none buffer limit 8 0 0 offset rfl (by omega)

/-- Witness for C9 on the two-byte varint `81 01` (value 129, inside the
exact double range) with `limit = 2`. -/
theorem readVarint_safety_witness :
    0 < (VarintResult.mk 129 2).next ∧ (VarintResult.mk 129 2).next ≤ 2 ∧
    (VarintResult.mk 129 2).next ≤ 0 + 8 ∧
    (leBase128 (bufSlice [0x81, 0x01] 0 (VarintResult.mk 129 2).next) < 2 ^ 53 →
      (VarintResult.mk 129 2).value =
        leBase128 (bufSlice [0x81, 0x01] 0 (VarintResult.mk 129 2).next)) ∧
    ([0x81, 0x01] : List Nat).getD ((VarintResult.mk 129 2).next - 1) 0 &&& 0x80 = 0 :=
  (readVarint_safety [0x81, 0x01] 0 2 (by decide)).2.1 ⟨129, 2⟩ (by decide)

/-! ## GroupAnalyticsService: string and buffer helpers

`buffer.toString('utf8', start, end)` decodes UTF-8 with U+FFFD
replacement for invalid sequences (WHATWG decoding, one replacement per
maximal invalid subpart, the offending byte not consumed). -/

/-- Consume up to `needed` continuation bytes (`lo ≤ b ≤ hi` for the first,
`80..BF` for the rest), returning the decoded code point and the remaining
bytes, or `none` at the first non-continuation byte (left unconsumed) or
end of input. -/
def utf8Cont : Nat → Nat → Nat → Nat → List Nat → Option Nat × List Nat
  | _, _, 0, cp, bs => (some cp, bs)
  | _, _, _ + 1, _, [] => (none, [])
  | lo, hi, needed + 1, cp, b :: rest =>
    if lo ≤ b ∧ b ≤ hi then
      utf8Cont 0x80 0xbf needed (cp * 64 + (b &&& 0x3f)) rest
    else (none, b :: rest)

/-- UTF-8 decoding loop; each step consumes at least the lead byte, so a
fuel of the buffer length suffices. -/
def utf8DecodeGo : Nat → List Nat → List Char
  | 0, _ => []
  | _, [] => []
  | fuel + 1, b :: rest =>
    if b ≤ 0x7f then Char.ofNat b :: utf8DecodeGo fuel rest
    else if 0xc2 ≤ b ∧ b ≤ 0xdf then
      match utf8Cont 0x80 0xbf 1 (b &&& 0x1f) rest with
      | (some cp, rest2) => Char.ofNat cp :: utf8DecodeGo fuel rest2
      | (none, rest2) => Char.ofNat 0xfffd :: utf8DecodeGo fuel rest2
    else if b = 0xe0 then
      match utf8Cont 0xa0 0xbf 2 (b &&& 0xf) rest with
      | (some cp, rest2) => Char.ofNat cp :: utf8DecodeGo fuel rest2
      | (none, rest2) => Char.ofNat 0xfffd :: utf8DecodeGo fuel rest2
    else if (0xe1 ≤ b ∧ b ≤ 0xec) ∨ (0xee ≤ b ∧ b ≤ 0xef) then
      match utf8Cont 0x80 0xbf 2 (b &&& 0xf) rest with
      | (some cp, rest2) => Char.ofNat cp :: utf8DecodeGo fuel rest2
      | (none, rest2) => Char.ofNat 0xfffd :: utf8DecodeGo fuel rest2
    else if b = 0xed then
      match utf8Cont 0x80 0x9f 2 (b &&& 0xf) rest with
      | (some cp, rest2) => Char.ofNat cp :: utf8DecodeGo fuel rest2
      | (none, rest2) => Char.ofNat 0xfffd :: utf8DecodeGo fuel rest2
    else if b = 0xf0 then
      match utf8Cont 0x90 0xbf 3 (b &&& 0x7) rest with
      | (some cp, rest2) => Char.ofNat cp :: utf8DecodeGo fuel rest2
      | (none, rest2) => Char.ofNat 0xfffd :: utf8DecodeGo fuel rest2
    else if 0xf1 ≤ b ∧ b ≤ 0xf3 then
      match utf8Cont 0x80 0xbf 3 (b &&& 0x7) rest with
      | (some cp, rest2) => Char.ofNat cp :: utf8DecodeGo fuel rest2
      | (none, rest2) => Char.ofNat 0xfffd :: utf8DecodeGo fuel rest2
    else if b = 0xf4 then
      match utf8Cont 0x80 0x8f 3 (b &&& 0x7) rest with
      | (some cp, rest2) => Char.ofNat cp :: utf8DecodeGo fuel rest2
      | (none, rest2) => Char.ofNat 0xfffd :: utf8DecodeGo fuel rest2
    else Char.ofNat 0xfffd :: utf8DecodeGo fuel rest

/-- `buffer.toString('utf8')` on a byte list. -/
def utf8Decode (bytes : List Nat) : List Char :=
  utf8DecodeGo bytes.length bytes

/-- Characters of the member-id tail class `[A-Za-z0-9_.@-]`. -/
def idTailChar (c : Char) : Bool :=
  c.isAlpha || c.isDigit || c == '_' || c == '.' || c == '@' || c == '-'

/-- `GroupAnalyticsService.isLikelyMemberId`: trimmed, non-empty, free of
`@chatroom`, length in `[4, 80]`, and matching
`^[A-Za-z][A-Za-z0-9_.@-]*$`. -/
def isLikelyMemberId (value : List Char) : Bool :=
  let id := jsTrim value
  if id.isEmpty then false
  else if containsSub id "@chatroom".data then false
  else if id.length < 4 || decide (80 < id.length) then false
  else match id with
    | [] => false
    | c :: rest => c.isAlpha && rest.all idTailChar

/-- `GroupAnalyticsService.normalizeGroupNickname`: trim; empty or
quote/`@`-only strings (`^["'@]+$`) normalize to the empty string. -/
def normalizeGroupNickname (value : List Char) : List Char :=
  let trimmed := jsTrim value
  if trimmed.isEmpty then []
  else if trimmed.all fun c => c == '"' || c == Char.ofNat 39 || c == '@' then []
  else trimmed

/-- The pattern `^wxid_[a-z0-9_]+$` with the case-insensitive flag. -/
def wxidLikePattern (s : List Char) : Bool :=
  let l := toLowerStr s
  "wxid_".data.isPrefixOf l && !(l.drop 5).isEmpty &&
    (l.drop 5).all fun c => c.isLower || c.isDigit || c == '_'

/-- A character matching `[一-鿿㐀-䶿\w]`. -/
def nickWordChar (c : Char) : Bool :=
  decide (0x4e00 ≤ c.toNat ∧ c.toNat ≤ 0x9fff) ||
  decide (0x3400 ≤ c.toNat ∧ c.toNat ≤ 0x4dbf) ||
  c.isAlpha || c.isDigit || c == '_'

/-- `GroupAnalyticsService.isLikelyNickname`. -/
def isLikelyNickname (value : List Char) : Bool :=
  let cleaned := normalizeGroupNickname value
  if cleaned.isEmpty then false
  else if wxidLikePattern cleaned then false
  else if containsSub cleaned "@chatroom".data then false
  else if !cleaned.any nickWordChar then false
  else if cleaned.length = 1 then
    decide (0x3400 ≤ (cleaned.headD ' ').toNat ∧ (cleaned.headD ' ').toNat ≤ 0x9fff)
  else true

/-- `rawNick.replace(/[\x00-\x1F\x7F]/g, '')`. -/
def stripControl (s : List Char) : List Char :=
  s.filter fun c => !(decide (c.toNat ≤ 0x1f) || decide (c.toNat = 0x7f))

/-- `GroupAnalyticsService.cleanAccountDirName`: for `wxid_`-prefixed names
keep `^(wxid_[^_]+)` (original case); otherwise strip a `_xxxx`
(four-alphanumeric) suffix per `^(.+)_([a-zA-Z0-9]{4})$` (the dot of the
regex does not match line terminators). -/
def cleanAccountDirName (name : List Char) : List Char :=
  let trimmed := jsTrim name
  if trimmed.isEmpty then trimmed
  else if "wxid_".data.isPrefixOf (toLowerStr trimmed) then
    let run := (trimmed.drop 5).takeWhile fun c => c != '_'
    if run.isEmpty then trimmed else trimmed.take 5 ++ run
  else
    let n := trimmed.length
    if 6 ≤ n ∧ trimmed.getD (n - 5) ' ' = '_' ∧
        ((trimmed.drop (n - 4)).all fun c => c.isAlpha || c.isDigit) ∧
        ((trimmed.take (n - 5)).all fun c =>
          !(c == '\n' || c == '\r' || c == Char.ofNat 0x2028 || c == Char.ofNat 0x2029)) then
      trimmed.take (n - 5)
    else trimmed

/-- `Set.add`: append if not already present (JS `Set` keeps insertion
order). -/
def setAdd (s : List (List Char)) (x : List Char) : List (List Char) :=
  if x ∈ s then s else s ++ [x]

/-- Loop of `GroupAnalyticsService.buildIdCandidates`: add each trimmed
non-empty value, then its cleaned form when different and non-empty. -/
def buildIdCandidatesGo : List (List Char) → List (List Char) → List (List Char)
  | [], acc => acc
  | v :: rest, acc =>
    let raw := jsTrim v
    if raw.isEmpty then buildIdCandidatesGo rest acc
    else
      let acc1 := setAdd acc raw
      let cleaned := cleanAccountDirName raw
      let acc2 := if cleaned ≠ [] ∧ cleaned ≠ raw then setAdd acc1 cleaned else acc1
      buildIdCandidatesGo rest acc2

/-- `GroupAnalyticsService.buildIdCandidates`. -/
def buildIdCandidates (values : List (List Char)) : List (List Char) :=
  buildIdCandidatesGo values []

/-! ### JS `Map<string, string>` as an insertion-ordered association list -/

/-- A JS `Map<string, string>` in entry (insertion) order. -/
abbrev NickMap := List (List Char × List Char)

/-- `map.has(k)`. -/
def mapHas (m : NickMap) (k : List Char) : Bool :=
  m.any fun kv => kv.1 == k

/-- `map.get(k)`. -/
def mapGet (m : NickMap) (k : List Char) : Option (List Char) :=
  (m.find? fun kv => kv.1 == k).map Prod.snd

/-- `map.set(k, v)`: update in place, else append. -/
def mapSet : NickMap → List Char → List Char → NickMap
  | [], k, v => [(k, v)]
  | (k0, v0) :: rest, k, v =>
    if k0 = k then (k, v) :: rest else (k0, v0) :: mapSet rest k v

/-- `if (!map.has(k)) map.set(k, v)`. -/
def insertIfAbsent (m : NickMap) (k v : List Char) : NickMap :=
  if mapHas m k then m else mapSet m k v

/-! ## GroupAnalyticsService.parseGroupNicknamesFromExtBuffer

The source iterates `for (let i = 0; i < buffer.length - 2; i += 1)`;
"skip to `X` and continue" appears as `i = X - 1` followed by the loop's
`i += 1`.  Every step advances `i` by at least one, so a fuel of the buffer
length suffices. -/

/-- One pass of the heuristic tag/length/value scanner, from position `i`
with accumulated nickname map `m`.  The source's local constants
(`idLen`, `idStart`, `idEnd = idLenInfo.next + idLenInfo.value`,
`memberId`, `nickLen`, `nickStart`, `nickEnd`, `nickname`) are inlined. -/
def scanGo (buffer : List Nat) (candidateSet : List (List Char)) :
    Nat → Nat → NickMap → NickMap
  | 0, _, m => m
  | fuel + 1, i, m =>
    if i < buffer.length - 2 then
      if buffer.getD i 0 ≠ 0x0a then scanGo buffer candidateSet fuel (i + 1) m
      else
        match readVarint buffer (i + 1) with
        | none => scanGo buffer candidateSet fuel (i + 1) m
        | some idLenInfo =>
          if idLenInfo.value = 0 ∨ 96 < idLenInfo.value then
            scanGo buffer candidateSet fuel (i + 1) m
          else if buffer.length < idLenInfo.next + idLenInfo.value then
            scanGo buffer candidateSet fuel (i + 1) m
          else if ¬ isLikelyMemberId (jsTrim (utf8Decode
              (bufSlice buffer idLenInfo.next (idLenInfo.next + idLenInfo.value)))) then
            scanGo buffer candidateSet fuel (i + 1) m
          else if candidateSet ≠ [] ∧
              toLowerStr (jsTrim (utf8Decode
                (bufSlice buffer idLenInfo.next (idLenInfo.next + idLenInfo.value)))) ∉
                candidateSet then
            scanGo buffer candidateSet fuel (idLenInfo.next + idLenInfo.value) m
          else if buffer.length ≤ idLenInfo.next + idLenInfo.value ∨
              buffer.getD (idLenInfo.next + idLenInfo.value) 0 ≠ 0x12 then
            scanGo buffer candidateSet fuel (idLenInfo.next + idLenInfo.value) m
          else
            match readVarint buffer (idLenInfo.next + idLenInfo.value + 1) with
            | none => scanGo buffer candidateSet fuel (idLenInfo.next + idLenInfo.value) m
            | some nickLenInfo =>
              if nickLenInfo.value = 0 ∨ 128 < nickLenInfo.value then
                scanGo buffer candidateSet fuel (idLenInfo.next + idLenInfo.value) m
              else if buffer.length < nickLenInfo.next + nickLenInfo.value then
                scanGo buffer candidateSet fuel (idLenInfo.next + idLenInfo.value) m
              else if ¬ isLikelyNickname (normalizeGroupNickname (jsTrim (stripControl
                  (utf8Decode (bufSlice buffer nickLenInfo.next
                    (nickLenInfo.next + nickLenInfo.value)))))) then
                scanGo buffer candidateSet fuel (nickLenInfo.next + nickLenInfo.value) m
              else
                scanGo buffer candidateSet fuel (nickLenInfo.next + nickLenInfo.value)
                  (insertIfAbsent
                    (insertIfAbsent m
                      (jsTrim (utf8Decode
                        (bufSlice buffer idLenInfo.next (idLenInfo.next + idLenInfo.value))))
                      (normalizeGroupNickname (jsTrim (stripControl
                        (utf8Decode (bufSlice buffer nickLenInfo.next
                          (nickLenInfo.next + nickLenInfo.value)))))))
                    (toLowerStr (jsTrim (utf8Decode
                      (bufSlice buffer idLenInfo.next (idLenInfo.next + idLenInfo.value)))))
                    (normalizeGroupNickname (jsTrim (stripControl
                      (utf8Decode (bufSlice buffer nickLenInfo.next
                        (nickLenInfo.next + nickLenInfo.value)))))))
    else m

/-- `GroupAnalyticsService.parseGroupNicknamesFromExtBuffer`. -/
def parseGroupNicknamesFromExtBuffer (buffer : List Nat)
    (candidates : List (List Char)) : NickMap :=
  if buffer.length = 0 then []
  else
    let candidateSet := (buildIdCandidates candidates).map toLowerStr
    scanGo buffer candidateSet buffer.length 0 []

/-! ## GroupAnalyticsService.resolveGroupNicknameByCandidates -/

/-- First pass of the resolver: exact-case lookup of each candidate,
returning the first non-empty normalized nickname. -/
def exactScan (table : NickMap) : List (List Char) → Option (List Char)
  | [] => none
  | id :: rest =>
    let exact := normalizeGroupNickname ((mapGet table id).getD [])
    if exact ≠ [] then some exact else exactScan table rest

/-- Inner loop of the case-insensitive fallback over the table's entries:
count entries whose key lowercases to `lower` and whose nickname
normalizes non-empty, remembering the last such nickname; `none` models
the source's early `return ''` as soon as a second match is seen. -/
def ciLoop (lower : List Char) : NickMap → List Char → Nat → Option (List Char × Nat)
  | [], found, matched => some (found, matched)
  | (k, v) :: rest, found, matched =>
    if toLowerStr k ≠ lower then ciLoop lower rest found matched
    else if normalizeGroupNickname v = [] then ciLoop lower rest found matched
    else if 1 < matched + 1 then none
    else ciLoop lower rest (normalizeGroupNickname v) (matched + 1)

/-- Second pass of the resolver: for each candidate in order, scan the
table case-insensitively; a unique match is returned, an ambiguous one
aborts with the empty string, no match moves to the next candidate. -/
def fallbackScan (table : NickMap) : List (List Char) → List Char
  | [] => []
  | id :: rest =>
    match ciLoop (toLowerStr id) table [] 0 with
    | none => []
    | some (found, matched) =>
      if matched = 1 ∧ found ≠ [] then found else fallbackScan table rest

/-- `GroupAnalyticsService.resolveGroupNicknameByCandidates`. -/
def resolveGroupNicknameByCandidates (table : NickMap)
    (candidates : List (List Char)) : List Char :=
  let idCandidates := buildIdCandidates candidates
  if idCandidates.isEmpty then []
  else
    match exactScan table idCandidates with
    | some v => v
    | none => fallbackScan table idCandidates

/-! ## Claim C6: concrete ext-buffer parse -/

/-- The blob `0A 09 "wxid_abcd" 12 06 "Alice1"` (varint lengths matching
the actual byte lengths 9 and 6). -/
def c6Blob : List Nat :=
  [0x0a, 0x09] ++ "wxid_abcd".data.map Char.toNat ++
  [0x12, 0x06] ++ "Alice1".data.map Char.toNat

set_option maxRecDepth 4000 in
/-- C6: parsing the blob with candidate set `{"wxid_abcd"}` yields a table
mapping both the raw-case key `wxid_abcd` and its lowercase form to
`Alice1`. -/
theorem parseExtBuffer_example :
    mapGet (parseGroupNicknamesFromExtBuffer c6Blob ["wxid_abcd".data])
      "wxid_abcd".data = some "Alice1".data ∧
    mapGet (parseGroupNicknamesFromExtBuffer c6Blob ["wxid_abcd".data])
      (toLowerStr "wxid_abcd".data) = some "Alice1".data := by
  decide

/-! ## Claim C10: entries are never overwritten during the scan -/

theorem mapGet_mapSet_ne (m : NickMap) (k1 v1 k : List Char) (hne : k ≠ k1) :
    mapGet (mapSet m k1 v1) k = mapGet m k := by
  have hbeq : (k1 == k) = false := by
    rw [beq_eq_false_iff_ne]
    exact fun h => hne h.symm
  induction m with
  | nil => simp [mapSet, mapGet, List.find?, hbeq]
  | cons kv rest ih =>
      obtain ⟨k0, v0⟩ := kv
      by_cases h0 : k0 = k1
      · subst h0
        simp [mapSet, mapGet, List.find?, hbeq]
      · simp only [mapSet, if_neg h0]
        simp only [mapGet, List.find?] at ih ⊢
        cases hbeq0 : (k0 == k) with
        | true => rfl
        | false => exact ih

theorem mapHas_of_mapGet (m : NickMap) (k v : List Char)
    (h : mapGet m k = some v) : mapHas m k = true := by
  induction m with
  | nil => simp [mapGet, List.find?] at h
  | cons kv rest ih =>
      obtain ⟨k0, v0⟩ := kv
      simp only [mapGet, List.find?] at h
      simp only [mapHas, List.any_cons]
      cases hbeq : (k0 == k) with
      | true => simp
      | false =>
          rw [hbeq] at h
          simp only [Bool.false_or]
          exact ih h

theorem mapGet_insertIfAbsent (m : NickMap) (k1 v1 k v : List Char)
    (h : mapGet m k = some v) : mapGet (insertIfAbsent m k1 v1) k = some v := by
  unfold insertIfAbsent
  by_cases hhas : mapHas m k1 = true
  · rw [if_pos hhas]; exact h
  · rw [if_neg hhas]
    have hne : k ≠ k1 := by
      intro he
      subst he
      exact hhas (mapHas_of_mapGet m k v h)
    rw [mapGet_mapSet_ne m k1 v1 k hne]
    exact h

/-- C10: during the ext-buffer scan, an entry of the nickname map, once
inserted, is never overwritten: any binding `k ↦ v` present in the
accumulated map survives to the final map, so when two accepted records
share a key (as identical strings or via the lowercase form), the key
keeps the nickname of the earlier accepted record. -/
theorem scanGo_no_overwrite (buffer : List Nat) (cset : List (List Char)) :
    ∀ fuel i m k v, mapGet m k = some v →
      mapGet (scanGo buffer cset fuel i m) k = some v := by
  intro fuel
  induction fuel with
  | zero => intro i m k v h; exact h
  | succ fuel ih =>
      intro i m k v h
      rw [scanGo]
      by_cases h1 : i < buffer.length - 2
      rotate_left
      · rw [if_neg h1]; exact h
      rw [if_pos h1]
      by_cases h2 : buffer.getD i 0 ≠ 10
      · rw [if_pos h2]; exact ih _ _ _ _ h
      rw [if_neg h2]
      cases hv1 : readVarint buffer (i + 1) with
      | none => exact ih _ _ _ _ h
      | some idInfo =>
          dsimp only
          split_ifs with h3 h4 h5 h6 h7
          all_goals try exact ih _ _ _ _ h
          cases hv2 : readVarint buffer (idInfo.next + idInfo.value + 1) with
          | none => exact ih _ _ _ _ h
          | some nickInfo =>
              try dsimp only
              split_ifs with h8 h9 h10
              all_goals try exact ih _ _ _ _ h
              exact ih _ _ _ _
                (mapGet_insertIfAbsent _ _ _ _ _ (mapGet_insertIfAbsent _ _ _ _ _ h))

/-- Witness for C10: a pre-existing binding survives a scan over a small
buffer. -/
theorem scanGo_no_overwrite_witness :
    mapGet (scanGo [0, 0, 0, 0] [] 4 0 [("a".data, "b".data)]) "a".data =
      some "b".data :=
  scanGo_no_overwrite [0, 0, 0, 0] [] 4 0 [("a".data, "b".data)]
    "a".data "b".data (by decide)

/-! ## Claim C5: case-insensitive fallback resolution

A table entry "matches" a candidate case-insensitively when its key
lowercases to the candidate's lowercase form and its nickname normalizes to
a non-empty string (entries whose value normalizes to empty are skipped by
the source and never counted). -/

/-- Number of table entries matching `lower` case-insensitively with a
non-empty normalized nickname. -/
def ciMatchCount (table : NickMap) (lower : List Char) : Nat :=
  table.countP fun kv =>
    decide (toLowerStr kv.1 = lower ∧ normalizeGroupNickname kv.2 ≠ [])

theorem ciLoop_none_iff (lower : List Char) :
    ∀ (entries : NickMap) (found : List Char) (matched : Nat),
      (ciLoop lower entries found matched = none ↔
        1 ≤ ciMatchCount entries lower ∧
        2 ≤ matched + ciMatchCount entries lower) := by
  intro entries
  induction entries with
  | nil =>
      intro found matched
      simp [ciLoop, ciMatchCount]
  | cons kv rest ih =>
      obtain ⟨k, v⟩ := kv
      intro found matched
      by_cases hk : toLowerStr k = lower
      · by_cases hn : normalizeGroupNickname v = []
        · have hcnt : ciMatchCount ((k, v) :: rest) lower =
              ciMatchCount rest lower := by
            simp [ciMatchCount, List.countP_cons, hk, hn]
          rw [show ciLoop lower ((k, v) :: rest) found matched =
              ciLoop lower rest found matched from by
            simp only [ciLoop]
            rw [if_neg (not_not_intro hk), if_pos hn]]
          rw [ih found matched, hcnt]
        · have hcnt : ciMatchCount ((k, v) :: rest) lower =
              ciMatchCount rest lower + 1 := by
            simp [ciMatchCount, List.countP_cons, hk, hn]
          by_cases hm : 1 < matched + 1
          · rw [show ciLoop lower ((k, v) :: rest) found matched = none from by
              simp only [ciLoop]
              rw [if_neg (not_not_intro hk), if_neg hn, if_pos hm]]
            rw [hcnt]
            constructor
            · intro _
              omega
            · intro _
              rfl
          · rw [show ciLoop lower ((k, v) :: rest) found matched =
                ciLoop lower rest (normalizeGroupNickname v) (matched + 1) from by
              simp only [ciLoop]
              rw [if_neg (not_not_intro hk), if_neg hn, if_neg hm]]
            rw [ih (normalizeGroupNickname v) (matched + 1), hcnt]
            omega
      · have hcnt : ciMatchCount ((k, v) :: rest) lower =
            ciMatchCount rest lower := by
          simp [ciMatchCount, List.countP_cons, hk]
        rw [show ciLoop lower ((k, v) :: rest) found matched =
            ciLoop lower rest found matched from by
          simp only [ciLoop]
          rw [if_pos hk]]
        rw [ih found matched, hcnt]

theorem ciLoop_some (lower : List Char) :
    ∀ (entries : NickMap) (found f : List Char) (matched mt : Nat),
      ciLoop lower entries found matched = some (f, mt) →
      mt = matched + ciMatchCount entries lower ∧
      (ciMatchCount entries lower = 0 → f = found) ∧
      (1 ≤ ciMatchCount entries lower →
        ∃ kv ∈ entries, toLowerStr kv.1 = lower ∧
          normalizeGroupNickname kv.2 ≠ [] ∧ f = normalizeGroupNickname kv.2) := by
  intro entries
  induction entries with
  | nil =>
      intro found f matched mt h
      simp only [ciLoop, Option.some.injEq, Prod.mk.injEq] at h
      obtain ⟨hf, hm⟩ := h
      subst hf
      subst hm
      refine ⟨by simp [ciMatchCount], fun _ => rfl, fun habs => ?_⟩
      simp [ciMatchCount] at habs
  | cons kv rest ih =>
      obtain ⟨k, v⟩ := kv
      intro found f matched mt h
      by_cases hk : toLowerStr k = lower
      · by_cases hn : normalizeGroupNickname v = []
        · have hcnt : ciMatchCount ((k, v) :: rest) lower =
              ciMatchCount rest lower := by
            simp [ciMatchCount, List.countP_cons, hk, hn]
          rw [show ciLoop lower ((k, v) :: rest) found matched =
              ciLoop lower rest found matched from by
            simp only [ciLoop]
            rw [if_neg (not_not_intro hk), if_pos hn]] at h
          obtain ⟨h1, h2, h3⟩ := ih found f matched mt h
          refine ⟨by omega, fun hz => h2 (by omega), fun hpos => ?_⟩
          obtain ⟨kv0, hmem, hkv⟩ := h3 (by omega)
          exact ⟨kv0, List.mem_cons_of_mem _ hmem, hkv⟩
        · have hcnt : ciMatchCount ((k, v) :: rest) lower =
              ciMatchCount rest lower + 1 := by
            simp [ciMatchCount, List.countP_cons, hk, hn]
          by_cases hm : 1 < matched + 1
          · rw [show ciLoop lower ((k, v) :: rest) found matched = none from by
              simp only [ciLoop]
              rw [if_neg (not_not_intro hk), if_neg hn, if_pos hm]] at h
            exact absurd h (by simp)
          · rw [show ciLoop lower ((k, v) :: rest) found matched =
                ciLoop lower rest (normalizeGroupNickname v) (matched + 1) from by
              simp only [ciLoop]
              rw [if_neg (not_not_intro hk), if_neg hn, if_neg hm]] at h
            obtain ⟨h1, h2, h3⟩ :=
              ih (normalizeGroupNickname v) f (matched + 1) mt h
            refine ⟨by omega, fun hz => absurd hz (by omega), fun _ => ?_⟩
            by_cases hr : ciMatchCount rest lower = 0
            · exact ⟨(k, v), List.mem_cons_self _ _, ⟨hk, hn, h2 hr⟩⟩
            · obtain ⟨kv0, hmem, hkv⟩ := h3 (by omega)
              exact ⟨kv0, List.mem_cons_of_mem _ hmem, hkv⟩
      · have hcnt : ciMatchCount ((k, v) :: rest) lower =
            ciMatchCount rest lower := by
          simp [ciMatchCount, List.countP_cons, hk]
        rw [show ciLoop lower ((k, v) :: rest) found matched =
            ciLoop lower rest found matched from by
          simp only [ciLoop]
          rw [if_pos hk]] at h
        obtain ⟨h1, h2, h3⟩ := ih found f matched mt h
        refine ⟨by omega, fun hz => h2 (by omega), fun hpos => ?_⟩
        obtain ⟨kv0, hmem, hkv⟩ := h3 (by omega)
        exact ⟨kv0, List.mem_cons_of_mem _ hmem, hkv⟩

theorem fallbackScan_spec (table : NickMap) :
    ∀ cands : List (List Char),
      (fallbackScan table cands ≠ [] →
        ∃ id ∈ cands, ciMatchCount table (toLowerStr id) = 1 ∧
          ∃ kv ∈ table, toLowerStr kv.1 = toLowerStr id ∧
            normalizeGroupNickname kv.2 ≠ [] ∧
            fallbackScan table cands = normalizeGroupNickname kv.2) ∧
      ((∀ id ∈ cands, ciMatchCount table (toLowerStr id) ≠ 1) →
        fallbackScan table cands = []) ∧
      (∀ pre id post, cands = pre ++ id :: post →
        (∀ j ∈ pre, ciMatchCount table (toLowerStr j) = 0) →
        2 ≤ ciMatchCount table (toLowerStr id) →
        fallbackScan table cands = []) := by
  intro cands
  induction cands with
  | nil =>
      refine ⟨fun h => absurd rfl h, fun _ => rfl, fun pre id post heq _ _ => ?_⟩
      exact absurd heq (by simp)
  | cons id0 rest ih =>
      cases hloop : ciLoop (toLowerStr id0) table [] 0 with
      | none =>
          have hres : fallbackScan table (id0 :: rest) = [] := by
            simp only [fallbackScan]
            rw [hloop]
          refine ⟨fun h => absurd hres h, fun _ => hres, fun _ _ _ _ _ _ => hres⟩
      | some fm =>
          obtain ⟨f, mt⟩ := fm
          obtain ⟨h1, h2, h3⟩ := ciLoop_some (toLowerStr id0) table [] f 0 mt hloop
          rw [Nat.zero_add] at h1
          by_cases hcond : mt = 1 ∧ f ≠ []
          · have hres : fallbackScan table (id0 :: rest) = f := by
              simp only [fallbackScan]
              rw [hloop]
              dsimp only
              rw [if_pos hcond]
            refine ⟨fun _ => ?_, fun hall => ?_, fun pre id post heq hpre hc => ?_⟩
            · refine ⟨id0, List.mem_cons_self _ _, by omega, ?_⟩
              obtain ⟨kv0, hmem, hkv1, hkv2, hkv3⟩ := h3 (by omega)
              exact ⟨kv0, hmem, hkv1, hkv2, by rw [hres, hkv3]⟩
            · exact absurd (by omega : ciMatchCount table (toLowerStr id0) = 1)
                (hall id0 (List.mem_cons_self _ _))
            · match pre, heq with
              | [], heq =>
                  have hid : id = id0 := by
                    simpa using congrArg (fun l => l.headD []) heq.symm
                  rw [hid] at hc
                  omega
              | j :: pre2, heq =>
                  have hj : j = id0 := by
                    simpa using congrArg (fun l => l.headD []) heq.symm
                  have := hpre j (List.mem_cons_self _ _)
                  rw [hj] at this
                  omega
          · have hres : fallbackScan table (id0 :: rest) = fallbackScan table rest := by
              simp only [fallbackScan]
              rw [hloop]
              dsimp only
              rw [if_neg hcond]
            refine ⟨fun hne => ?_, fun hall => ?_, fun pre id post heq hpre hc => ?_⟩
            · rw [hres] at hne ⊢
              obtain ⟨id1, hmem, hc1, kv0, hmem0, hkv1, hkv2, hkv3⟩ := ih.1 hne
              exact ⟨id1, List.mem_cons_of_mem _ hmem, hc1,
                kv0, hmem0, hkv1, hkv2, hkv3⟩
            · rw [hres]
              exact ih.2.1 fun id1 hmem => hall id1 (List.mem_cons_of_mem _ hmem)
            · rw [hres]
              match pre, heq with
              | [], heq =>
                  have hid : id = id0 := by
                    simpa using congrArg (fun l => l.headD []) heq.symm
                  rw [hid] at hc
                  have : ciLoop (toLowerStr id0) table [] 0 = none :=
                    (ciLoop_none_iff (toLowerStr id0) table [] 0).mpr
                      ⟨by omega, by omega⟩
                  rw [hloop] at this
                  exact absurd this (by simp)
              | j :: pre2, heq =>
                  have hj : j = id0 := by
                    simpa using congrArg (fun l => l.headD []) heq.symm
                  have hrest : rest = pre2 ++ id :: post := by
                    simpa using congrArg (fun l => l.tail) heq
                  exact ih.2.2 pre2 id post hrest
                    (fun j2 hmem => hpre j2 (List.mem_cons_of_mem _ hmem)) hc

theorem exactScan_eq_none (table : NickMap) :
    ∀ cands : List (List Char),
      (∀ id ∈ cands,
        normalizeGroupNickname ((mapGet table id).getD []) = []) →
      exactScan table cands = none := by
  intro cands
  induction cands with
  | nil => intro _; rfl
  | cons id0 rest ih =>
      intro hall
      have h0 := hall id0 (List.mem_cons_self _ _)
      simp only [exactScan]
      rw [if_neg (not_not_intro h0)]
      exact ih fun id1 hmem => hall id1 (List.mem_cons_of_mem _ hmem)

/-- C5: when no candidate has an exact-case table entry with a non-empty
normalized nickname, the resolver (1) returns a non-empty nickname via the
case-insensitive fallback only when some candidate is matched
case-insensitively by exactly one table entry carrying a non-empty
normalized nickname, and the result is that entry's normalized nickname;
(2) returns the empty string when no candidate has exactly one such match;
and (3) in particular, when the first candidate with any case-insensitive
match has two or more matching entries (e.g. raw-case-distinct keys
colliding under lowercase with conflicting nicknames), the lookup is
ambiguous and the empty string is returned. -/
theorem resolveGroupNickname_ci_fallback (table : NickMap)
    (candidates : List (List Char))
    (hexact : ∀ id ∈ buildIdCandidates candidates,
      normalizeGroupNickname ((mapGet table id).getD []) = []) :
    (resolveGroupNicknameByCandidates table candidates ≠ [] →
      ∃ id ∈ buildIdCandidates candidates,
        ciMatchCount table (toLowerStr id) = 1 ∧
        ∃ kv ∈ table, toLowerStr kv.1 = toLowerStr id ∧
          normalizeGroupNickname kv.2 ≠ [] ∧
          resolveGroupNicknameByCandidates table candidates =
            normalizeGroupNickname kv.2) ∧
    ((∀ id ∈ buildIdCandidates candidates,
        ciMatchCount table (toLowerStr id) ≠ 1) →
      resolveGroupNicknameByCandidates table candidates = []) ∧
    (∀ pre id post, buildIdCandidates candidates = pre ++ id :: post →
      (∀ j ∈ pre, ciMatchCount table (toLowerStr j) = 0) →
      2 ≤ ciMatchCount table (toLowerStr id) →
      resolveGroupNicknameByCandidates table candidates = []) := by
  by_cases hempty : (buildIdCandidates candidates).isEmpty
  · have hres : resolveGroupNicknameByCandidates table candidates = [] := by
      simp only [resolveGroupNicknameByCandidates]
      rw [if_pos hempty]
    exact ⟨fun h => absurd hres h, fun _ => hres, fun _ _ _ _ _ _ => hres⟩
  · have hres : resolveGroupNicknameByCandidates table candidates =
        fallbackScan table (buildIdCandidates candidates) := by
      simp only [resolveGroupNicknameByCandidates]
      rw [if_neg hempty, exactScan_eq_none table _ hexact]
    rw [hres]
    exact fallbackScan_spec table (buildIdCandidates candidates)

/-- Witness for C5: two raw-case-distinct keys collide under lowercase with
conflicting nicknames and no exact-case match exists, so the resolver
returns the empty string. -/
theorem resolveGroupNickname_ci_fallback_witness :
    resolveGroupNicknameByCandidates
      [("Abc".data, "Nick".data), ("ABC".data, "Other".data)]
      ["abc".data] = [] :=
  (resolveGroupNickname_ci_fallback
    [("Abc".data, "Nick".data), ("ABC".data, "Other".data)]
    ["abc".data] (by decide)).2.1 (by decide)
